import Mathlib

/-!
Shallow embedding of `queue.c` (lab0-c): a FIFO/LIFO queue backed by a
singly-linked list of heap-allocated C strings.

Modelling conventions:

* A C string is a `List Nat` of its bytes up to (not including) the
  terminating NUL byte.  `validStr` records the fact that a C string has
  no interior NUL byte (every stored byte is positive).
* A heap node (`list_ele_t`) is an `Element`: its allocation address is
  abstracted to a natural-number identity `id`, its `value` is the byte
  list of the owned payload copy.  The `next` pointers are represented by
  adjacency in a list.
* A `queue_t` is a `Queue`: `chain` is the list of nodes reachable from
  `q->head` by following `next` (head first), `tail` is the identity of the
  node the `q->tail` pointer references (or `none` for NULL), and `size`
  is the stored element count.  A possibly-NULL `queue_t *` is an
  `Option Queue`.
* `malloc` results are passed in as oracles (`Option Nat` for the node
  allocation carrying the fresh identity, `Bool` for the payload
  allocation).
* `size_t` arithmetic is on `Nat` reduced modulo `2 ^ w` where wrap-around
  matters (`w` = bit width of `size_t`).
* Operations whose C execution dereferences a NULL pointer (possible only
  on queues that already violate the documented invariants) return `none`
  at an outer `Option` layer: that branch of the behaviour is undefined.

Each definition is translated from the corresponding function of
`src/queue.c`; line references are given in the doc comments.
-/

/-- One list node (`list_ele_t`, queue.h): owned payload copy plus identity
of the allocation; the `next` link is represented by list adjacency. -/
structure Element where
  id : Nat
  value : List Nat
deriving DecidableEq

/-- Queue header (`queue_t`): `chain` = nodes reachable from `head`
(head first), `tail` = identity of the node `q->tail` points at,
`size` = stored count. -/
structure Queue where
  chain : List Element
  tail : Option Nat
  size : Nat
deriving DecidableEq

/-- A valid C string payload: no interior NUL, i.e. every byte positive. -/
def validStr (s : List Nat) : Prop := ∀ b ∈ s, 0 < b

instance (s : List Nat) : Decidable (validStr s) :=
  decidable_of_iff (∀ b ∈ s, 0 < b) Iff.rfl

/-- The queue invariants of the specification (§3): the stored size counts
the reachable chain, the `tail` pointer references the last reachable node
(`none` iff empty), and node identities are pairwise distinct (distinct
allocations). -/
def wf (q : Queue) : Prop :=
  q.size = q.chain.length ∧
  q.tail = (q.chain.getLast?).map Element.id ∧
  (q.chain.map Element.id).Nodup

instance (q : Queue) : Decidable (wf q) :=
  decidable_of_iff
    (q.size = q.chain.length ∧
      q.tail = (q.chain.getLast?).map Element.id ∧
      (q.chain.map Element.id).Nodup) Iff.rfl

/-- C `strcmp` on the byte lists of two NUL-terminated strings: difference
of the first differing bytes, the terminator acting as byte 0. -/
def strcmp : List Nat → List Nat → Int
  | [], [] => 0
  | [], b :: _ => -(b : Int)
  | a :: _, [] => (a : Int)
  | a :: as, b :: bs => if a = b then strcmp as bs else (a : Int) - (b : Int)

/-- `q_new` (queue.c:12-22): fresh empty queue, or NULL when `malloc`
fails (`alloc` = allocation oracle). -/
def q_new (alloc : Bool) : Option Queue :=
  if alloc then some { chain := [], tail := none, size := 0 } else none

/-- `q_free` (queue.c:25-38).  Observable effect: the identities of the
nodes freed (each with its payload, in chain order) and whether the queue
header itself was freed; a NULL queue returns immediately, freeing
nothing. -/
def q_free (q : Option Queue) : List Nat × Bool :=
  match q with
  | none => ([], false)
  | some qq => (qq.chain.map Element.id, true)

/-- `loc_element` (queue.c:45-62): allocate a node and a payload copy of
`s`.  `nodeAlloc` is the node-`malloc` oracle (`some id` = success at a
fresh address `id`), `payloadAlloc` the payload-`malloc` oracle; on
payload failure the node is freed again and NULL returned. -/
def loc_element (nodeAlloc : Option Nat) (payloadAlloc : Bool) (s : List Nat) :
    Option Element :=
  match nodeAlloc with
  | none => none
  | some id => if payloadAlloc then some { id := id, value := s } else none

/-- `q_insert_head` (queue.c:71-89): NULL queue or failed allocation
returns false with the queue untouched; otherwise the new node is linked
before the current head, `tail` is set to it when the `tail` pointer was
NULL, and `size` is incremented. -/
def q_insert_head (q : Option Queue) (nodeAlloc : Option Nat) (payloadAlloc : Bool)
    (s : List Nat) : Bool × Option Queue :=
  match q with
  | none => (false, none)
  | some qq =>
    match loc_element nodeAlloc payloadAlloc s with
    | none => (false, some qq)
    | some newh =>
      (true, some { chain := newh :: qq.chain,
                    tail := if qq.tail = none then some newh.id else qq.tail,
                    size := qq.size + 1 })

/-- The chain reachable from `head` after the assignment
`q->tail->next = newt` (queue.c:112): the nodes up to and including the
first one whose identity is `tid`, then `newt`; if no reachable node has
identity `tid` the write happens off-chain and the reachable chain is
unchanged. -/
def appendAfter : List Element → Nat → Element → List Element
  | [], _, _ => []
  | a :: rest, tid, newt =>
    if a.id = tid then a :: [newt] else a :: appendAfter rest tid newt

/-- `q_insert_tail` (queue.c:98-117): NULL queue or failed allocation
returns false with the queue untouched; with a NULL `tail` pointer the new
node becomes the head, otherwise it is written after the node `tail`
references; `tail` then points at the new node and `size` is
incremented. -/
def q_insert_tail (q : Option Queue) (nodeAlloc : Option Nat) (payloadAlloc : Bool)
    (s : List Nat) : Bool × Option Queue :=
  match q with
  | none => (false, none)
  | some qq =>
    match loc_element nodeAlloc payloadAlloc s with
    | none => (false, some qq)
    | some newt =>
      match qq.tail with
      | none => (true, some { chain := [newt], tail := some newt.id,
                              size := qq.size + 1 })
      | some tid => (true, some { chain := appendAfter qq.chain tid newt,
                                  tail := some newt.id, size := qq.size + 1 })

/-- `bufsize - 1` in `size_t` arithmetic (queue.c:144-145): wraps to
`2 ^ w - 1` when `bufsize = 0`. -/
def truncLen (bufsize w : Nat) : Nat := (bufsize + (2 ^ w - 1)) % 2 ^ w

/-- The copy `q_remove_head` performs into a non-NULL `sp`
(queue.c:141-149), as (number of bytes written into `sp`, bytes written
starting at `sp[0]`): when `strlen(value) > bufsize` it `memcpy`s
`bufsize - 1` bytes (in `size_t` arithmetic) and NUL-terminates at
`sp[bufsize - 1]`, otherwise it `memcpy`s the whole value plus its
terminator (`v_length + 1` bytes). -/
def spWrite (value : List Nat) (bufsize w : Nat) : Nat × List Nat :=
  if value.length > bufsize then
    (truncLen bufsize w + 1, value.take (truncLen bufsize w) ++ [0])
  else
    (value.length + 1, value ++ [0])

/-- `q_remove_head` (queue.c:127-154): result is
(return value, queue afterwards, bytes written into `sp`), where the last
component is `none` when `sp` is NULL or nothing was removed.  The outer
`Option` is `none` on the undefined NULL dereference of `q->head` (only
possible when `size ≠ 0` with an empty chain, an invariant-violating
state). -/
def q_remove_head (q : Option Queue) (spNull : Bool) (bufsize w : Nat) :
    Option (Bool × Option Queue × Option (Nat × List Nat)) :=
  match q with
  | none => some (false, none, none)
  | some qq =>
    if qq.size = 0 then some (false, some qq, none)
    else
      match qq.chain with
      | [] => none
      | target :: rest =>
        some (true,
          some { chain := rest,
                 tail := if qq.size - 1 = 0 then none else qq.tail,
                 size := qq.size - 1 },
          if spNull then none else some (spWrite target.value bufsize w))

/-- `q_size` (queue.c:160-163): 0 for a NULL queue, else the stored
count. -/
def q_size (q : Option Queue) : Nat :=
  match q with
  | none => 0
  | some qq => qq.size

/-- The chain reachable from the node with identity `tid` after the
reversal loop of `q_reverse` (queue.c:179-188) has rewired every reachable
node's `next` to its predecessor (old head's `next` becoming NULL), before
reversal: the nodes up to and including the first one with identity `tid`.
After the loop, that node reaches exactly these nodes in reverse order. -/
def reachAfterReverse : List Element → Nat → List Element
  | [], _ => []
  | a :: rest, tid =>
    if a.id = tid then [a] else a :: reachAfterReverse rest tid

/-- `q_reverse` (queue.c:172-194): no-op on a NULL queue or `size ∈ {0,1}`;
otherwise the links of the reachable chain are reversed in place and the
`head` and `tail` pointers are swapped.  The outer `Option` is `none` when
the C code dereferences NULL (`size ≥ 2` with an empty chain) or when the
`tail` pointer references a node outside the reachable chain (the chain
reachable from it is then not represented in this model); neither state
satisfies the documented invariants. -/
def q_reverse (q : Option Queue) : Option (Option Queue) :=
  match q with
  | none => some none
  | some qq =>
    if qq.size = 0 ∨ qq.size = 1 then some (some qq)
    else
      match qq.chain with
      | [] => none
      | a :: _ =>
        match qq.tail with
        | none => some (some { chain := [], tail := some a.id, size := qq.size })
        | some tid =>
          if tid ∈ qq.chain.map Element.id then
            some (some { chain := (reachAfterReverse qq.chain tid).reverse,
                         tail := some a.id, size := qq.size })
          else none

/-- The element order used by `recur_sort`:
`strcmp(left->value, right->value) <= 0` (queue.c:228). -/
def eleLe (a b : Element) : Prop := strcmp a.value b.value ≤ 0

instance : DecidableRel eleLe :=
  fun a b => decidable_of_iff (strcmp a.value b.value ≤ 0) Iff.rfl

/-- The merge loop of `recur_sort` (queue.c:217-249): repeatedly take the
left node when `strcmp(left->value, right->value) <= 0`, else the right
node; when one side runs out, attach the rest of the other. -/
def merge : List Element → List Element → List Element
  | [], bs => bs
  | a :: as, [] => a :: as
  | a :: as, b :: bs =>
    if strcmp a.value b.value ≤ 0 then a :: merge as (b :: bs)
    else b :: merge (a :: as) bs
termination_by as bs => as.length + bs.length
decreasing_by
  all_goals simp [List.length_cons]

/-- `recur_sort` (queue.c:199-250) on the reachable chain: lists of
`length <= 1` are returned as they are; otherwise the chain is cut just
after node `length / 2 - 1` (so the left part is the first `length / 2`
reachable nodes and the right part the rest), both parts are sorted
recursively and merged.  Faithful whenever `len` does not exceed the
number of reachable nodes (otherwise the C walk dereferences NULL). -/
def recur_sort (l : List Element) (len : Nat) : List Element :=
  if h : len ≤ 1 then l
  else
    merge (recur_sort (l.take (len / 2)) (len / 2))
          (recur_sort (l.drop (len / 2)) (len - len / 2))
termination_by len
decreasing_by
  · omega
  · omega

/-- `q_sort` (queue.c:257-265): no-op on a NULL queue or `size ∈ {0,1}`;
otherwise the chain from `head` is replaced by `recur_sort` of it with the
stored `size` as the length argument.  `q->tail` and `q->size` are not
touched.  The outer `Option` is `none` when `size` exceeds the reachable
chain length (the C walk then dereferences NULL or builds a cycle; such a
state violates the documented invariants). -/
def q_sort (q : Option Queue) : Option (Option Queue) :=
  match q with
  | none => some none
  | some qq =>
    if qq.size = 0 ∨ qq.size = 1 then some (some qq)
    else if qq.size ≤ qq.chain.length then
      some (some { chain := recur_sort qq.chain qq.size,
                   tail := qq.tail, size := qq.size })
    else none

theorem strcmp_nil_le (b : List Nat) : strcmp [] b ≤ 0 := by
  cases b <;> simp [strcmp]

theorem strcmp_neg (a : List Nat) : ∀ b, strcmp a b = -strcmp b a := by
  induction a with
  | nil => intro b; cases b <;> simp [strcmp]
  | cons x xs ih =>
    intro b
    cases b with
    | nil => simp [strcmp]
    | cons y ys =>
      by_cases h : x = y
      · subst h; simp [strcmp, ih]
      · have h' : ¬ (y = x) := fun hh => h hh.symm
        simp [strcmp, h, h', neg_sub]

theorem strcmp_trans : ∀ a b c, validStr a → validStr b → validStr c →
    strcmp a b ≤ 0 → strcmp b c ≤ 0 → strcmp a c ≤ 0 := by
  intro a
  induction a with
  | nil => intro b c _ _ _ _ _; exact strcmp_nil_le c
  | cons x xs ih =>
    intro b c ha hb hc h1 h2
    cases b with
    | nil =>
      have hx : 0 < x := ha x (by simp)
      simp [strcmp] at h1
      omega
    | cons y ys =>
      cases c with
      | nil =>
        have hy : 0 < y := hb y (by simp)
        simp [strcmp] at h2
        omega
      | cons z zs =>
        have ha' : validStr xs := fun u hu => ha u (List.mem_cons_of_mem _ hu)
        have hb' : validStr ys := fun u hu => hb u (List.mem_cons_of_mem _ hu)
        have hc' : validStr zs := fun u hu => hc u (List.mem_cons_of_mem _ hu)
        by_cases hxy : x = y
        · subst hxy
          by_cases hxz : x = z
          · subst hxz
            simp [strcmp] at h1 h2 ⊢
            exact ih ys zs ha' hb' hc' h1 h2
          · simp [strcmp, hxz] at h2 ⊢
            exact h2
        · by_cases hyz : y = z
          · subst hyz
            simp [strcmp, hxy] at h1 ⊢
            exact h1
          · simp [strcmp, hxy] at h1
            simp [strcmp, hyz] at h2
            have hxz : ¬ x = z := by omega
            simp [strcmp, hxz]
            omega

theorem strcmp_eq_zero_unique (v : List Nat) : ∀ a b, validStr a → validStr b →
    strcmp a v = 0 → strcmp b v = 0 → strcmp a b = 0 := by
  induction v with
  | nil =>
    intro a b ha hb h1 h2
    have ha' : a = [] := by
      cases a with
      | nil => rfl
      | cons x xs =>
        have hx : 0 < x := ha x (by simp)
        simp [strcmp] at h1
        omega
    have hb' : b = [] := by
      cases b with
      | nil => rfl
      | cons y ys =>
        have hy : 0 < y := hb y (by simp)
        simp [strcmp] at h2
        omega
    subst ha'; subst hb'; simp [strcmp]
  | cons w vs ih =>
    intro a b ha hb h1 h2
    cases a with
    | nil =>
      have hw : w = 0 := by simp [strcmp] at h1; omega
      cases b with
      | nil => simp [strcmp]
      | cons y ys =>
        exfalso
        have hy : 0 < y := hb y (by simp)
        have hyw : ¬ y = w := by omega
        simp [strcmp, hyw] at h2
        omega
    | cons x xs =>
      have hx : 0 < x := ha x (by simp)
      by_cases hxw : x = w
      · subst hxw
        simp [strcmp] at h1
        cases b with
        | nil =>
          exfalso
          simp [strcmp] at h2
          omega
        | cons y ys =>
          by_cases hyx : y = x
          · subst hyx
            simp [strcmp] at h2 ⊢
            exact ih xs ys (fun u hu => ha u (List.mem_cons_of_mem _ hu))
              (fun u hu => hb u (List.mem_cons_of_mem _ hu)) h1 h2
          · exfalso
            simp [strcmp, hyx] at h2
            omega
      · exfalso
        simp [strcmp, hxw] at h1
        omega

theorem merge_perm : ∀ (as bs : List Element), List.Perm (merge as bs) (as ++ bs) := by
  intro as
  induction as with
  | nil => intro bs; simp [merge]
  | cons a as iha =>
    intro bs
    induction bs with
    | nil => simp [merge]
    | cons b bs ihb =>
      by_cases h : strcmp a.value b.value ≤ 0
      · simp only [merge, if_pos h]
        exact (iha (b :: bs)).cons a
      · simp only [merge, if_neg h]
        exact List.Perm.trans (ihb.cons b) List.perm_middle.symm

theorem merge_sorted : ∀ (as bs : List Element),
    (∀ e ∈ as, validStr e.value) → as.Pairwise eleLe →
    (∀ e ∈ bs, validStr e.value) → bs.Pairwise eleLe →
    (merge as bs).Pairwise eleLe := by
  intro as
  induction as with
  | nil => intro bs _ _ _ hb; simpa [merge] using hb
  | cons a as iha =>
    intro bs hva ha
    induction bs with
    | nil => intro _ _; simpa [merge] using ha
    | cons b bs ihb =>
      intro hvb hb
      have hva' : ∀ e ∈ as, validStr e.value := fun e he => hva e (List.mem_cons_of_mem _ he)
      have hvb' : ∀ e ∈ bs, validStr e.value := fun e he => hvb e (List.mem_cons_of_mem _ he)
      have ha' := (List.pairwise_cons.1 ha).2
      have hb' := (List.pairwise_cons.1 hb).2
      by_cases h : strcmp a.value b.value ≤ 0
      · simp only [merge, if_pos h]
        rw [List.pairwise_cons]
        refine ⟨?_, iha (b :: bs) hva' ha' hvb hb⟩
        intro x hx
        rcases List.mem_append.1 ((merge_perm as (b :: bs)).subset hx) with hxa | hxb
        · exact (List.pairwise_cons.1 ha).1 x hxa
        · rcases List.mem_cons.1 hxb with rfl | hxb'
          · exact h
          · exact strcmp_trans a.value b.value x.value (hva a (by simp)) (hvb b (by simp))
              (hvb' x hxb') h ((List.pairwise_cons.1 hb).1 x hxb')
      · simp only [merge, if_neg h]
        rw [List.pairwise_cons]
        have hba : eleLe b a := by
          have hn := strcmp_neg b.value a.value
          unfold eleLe at h ⊢
          omega
        refine ⟨?_, ihb hvb' hb'⟩
        intro x hx
        rcases List.mem_append.1 ((merge_perm (a :: as) bs).subset hx) with hxa | hxb
        · rcases List.mem_cons.1 hxa with rfl | hxa'
          · exact hba
          · exact strcmp_trans b.value a.value x.value (hvb b (by simp)) (hva a (by simp))
              (hva' x hxa') hba ((List.pairwise_cons.1 ha).1 x hxa')
        · exact (List.pairwise_cons.1 hb).1 x hxb

theorem merge_filter (v : List Nat) : ∀ (as bs : List Element),
    (∀ e ∈ as, validStr e.value) → as.Pairwise eleLe →
    (∀ e ∈ bs, validStr e.value) → bs.Pairwise eleLe →
    (merge as bs).filter (fun e => decide (strcmp e.value v = 0)) =
      as.filter (fun e => decide (strcmp e.value v = 0)) ++
        bs.filter (fun e => decide (strcmp e.value v = 0)) := by
  intro as
  induction as with
  | nil => intro bs _ _ _ _; simp [merge]
  | cons a as iha =>
    intro bs hva ha
    induction bs with
    | nil => intro _ _; simp [merge]
    | cons b bs ihb =>
      intro hvb hb
      have hva' : ∀ e ∈ as, validStr e.value := fun e he => hva e (List.mem_cons_of_mem _ he)
      have hvb' : ∀ e ∈ bs, validStr e.value := fun e he => hvb e (List.mem_cons_of_mem _ he)
      have ha' := (List.pairwise_cons.1 ha).2
      have hb' := (List.pairwise_cons.1 hb).2
      by_cases h : strcmp a.value b.value ≤ 0
      · simp only [merge, if_pos h, List.filter_cons]
        rw [iha (b :: bs) hva' ha' hvb hb]
        by_cases hpa : strcmp a.value v = 0 <;> simp [hpa, List.filter_cons]
      · simp only [merge, if_neg h, List.filter_cons]
        rw [ihb hvb' hb']
        by_cases hpb : strcmp b.value v = 0
        · have hnil : (a :: as).filter (fun e => decide (strcmp e.value v = 0)) = [] := by
            rw [List.filter_eq_nil_iff]
            intro x hx
            simp only [decide_eq_true_eq]
            intro hpx
            rcases List.mem_cons.1 hx with rfl | hx'
            · have h0 := strcmp_eq_zero_unique v x.value b.value (hva x (by simp))
                (hvb b (by simp)) hpx hpb
              exact h (le_of_eq h0)
            · have hax := (List.pairwise_cons.1 ha).1 x hx'
              have hxb0 := strcmp_eq_zero_unique v x.value b.value (hva' x hx')
                (hvb b (by simp)) hpx hpb
              exact h (strcmp_trans a.value x.value b.value (hva a (by simp)) (hva' x hx')
                (hvb b (by simp)) hax (le_of_eq hxb0))
          rw [List.filter_cons] at hnil
          simp only [decide_eq_true_eq] at hnil
          simp [hnil, hpb, List.filter_cons]
        · simp [hpb, List.filter_cons]

theorem recur_sort_perm (len : Nat) : ∀ l : List Element, List.Perm (recur_sort l len) l := by
  induction len using Nat.strong_induction_on with
  | _ len ih =>
    intro l
    by_cases h : len ≤ 1
    · rw [recur_sort.eq_def, dif_pos h]
    · rw [recur_sort.eq_def, dif_neg h]
      have hm1 : len / 2 < len := by omega
      have hm2 : len - len / 2 < len := by omega
      refine List.Perm.trans (merge_perm _ _) ?_
      refine List.Perm.trans (List.Perm.append (ih _ hm1 _) (ih _ hm2 _)) ?_
      rw [List.take_append_drop]

theorem recur_sort_sorted (len : Nat) : ∀ l : List Element, l.length ≤ len →
    (∀ e ∈ l, validStr e.value) → (recur_sort l len).Pairwise eleLe := by
  induction len using Nat.strong_induction_on with
  | _ len ih =>
    intro l hlen hval
    by_cases h : len ≤ 1
    · rw [recur_sort.eq_def, dif_pos h]
      match l, hlen with
      | [], _ => exact List.Pairwise.nil
      | [a], _ => simp
      | a :: b :: t, hlen => simp at hlen; omega
    · rw [recur_sort.eq_def, dif_neg h]
      have hm1 : len / 2 < len := by omega
      have hm2 : len - len / 2 < len := by omega
      have hlt : (l.take (len / 2)).length ≤ len / 2 := by
        rw [List.length_take]; omega
      have hld : (l.drop (len / 2)).length ≤ len - len / 2 := by
        rw [List.length_drop]; omega
      have hvt : ∀ e ∈ l.take (len / 2), validStr e.value :=
        fun e he => hval e (List.take_subset _ _ he)
      have hvd : ∀ e ∈ l.drop (len / 2), validStr e.value :=
        fun e he => hval e (List.drop_subset _ _ he)
      exact merge_sorted _ _
        (fun e he => hvt e ((recur_sort_perm _ _).subset he))
        (ih _ hm1 _ hlt hvt)
        (fun e he => hvd e ((recur_sort_perm _ _).subset he))
        (ih _ hm2 _ hld hvd)

theorem recur_sort_filter (v : List Nat) (len : Nat) : ∀ l : List Element, l.length ≤ len →
    (∀ e ∈ l, validStr e.value) →
    (recur_sort l len).filter (fun e => decide (strcmp e.value v = 0)) =
      l.filter (fun e => decide (strcmp e.value v = 0)) := by
  induction len using Nat.strong_induction_on with
  | _ len ih =>
    intro l hlen hval
    by_cases h : len ≤ 1
    · rw [recur_sort.eq_def, dif_pos h]
    · rw [recur_sort.eq_def, dif_neg h]
      have hm1 : len / 2 < len := by omega
      have hm2 : len - len / 2 < len := by omega
      have hlt : (l.take (len / 2)).length ≤ len / 2 := by
        rw [List.length_take]; omega
      have hld : (l.drop (len / 2)).length ≤ len - len / 2 := by
        rw [List.length_drop]; omega
      have hvt : ∀ e ∈ l.take (len / 2), validStr e.value :=
        fun e he => hval e (List.take_subset _ _ he)
      have hvd : ∀ e ∈ l.drop (len / 2), validStr e.value :=
        fun e he => hval e (List.drop_subset _ _ he)
      rw [merge_filter v _ _
        (fun e he => hvt e ((recur_sort_perm _ _).subset he))
        (recur_sort_sorted _ _ hlt hvt)
        (fun e he => hvd e ((recur_sort_perm _ _).subset he))
        (recur_sort_sorted _ _ hld hvd)]
      rw [ih _ hm1 _ hlt hvt, ih _ hm2 _ hld hvd]
      rw [← List.filter_append, List.take_append_drop]

theorem mem_of_getLast?_eq {l : List Element} {z : Element} (h : l.getLast? = some z) :
    z ∈ l := by
  have hz : z ∈ l.getLast? := by rw [h]; rfl
  rcases List.mem_getLast?_eq_getLast hz with ⟨hne, rfl⟩
  exact List.getLast_mem hne

theorem reachAfterReverse_getLast : ∀ (l : List Element) (z : Element),
    l.getLast? = some z → (l.map Element.id).Nodup → reachAfterReverse l z.id = l := by
  intro l
  induction l with
  | nil => intro z hz _; simp at hz
  | cons a rest ih =>
    intro z hz hnd
    cases rest with
    | nil =>
      simp at hz
      subst hz
      simp [reachAfterReverse]
    | cons b t =>
      have hz' : (b :: t).getLast? = some z := by
        rw [← hz, List.getLast?_cons_cons]
      have hzm : z ∈ b :: t := mem_of_getLast?_eq hz'
      have hmap := hnd
      rw [List.map_cons, List.nodup_cons] at hmap
      have hne : a.id ≠ z.id := by
        intro he
        exact hmap.1 (he ▸ List.mem_map_of_mem Element.id hzm)
      simp only [reachAfterReverse, if_neg hne]
      have hrec : (if b.id = z.id then [b] else b :: reachAfterReverse t z.id) = b :: t :=
        ih z hz' hmap.2
      rw [hrec]

/-- Claim C1 (evidence of the code bug): at the boundary where the payload
length equals `bufsize` (payload "abcd", `bufsize = 4`, 64-bit `size_t`),
`q_remove_head` takes the untruncated branch and writes
`v_length + 1 = 5` bytes into `sp` — one byte past the end of the buffer —
because queue.c:143 compares `v_length > bufsize` instead of
`v_length >= bufsize`.  The claim's bound (at most `bufsize - 1` payload
bytes plus one terminator, never past the buffer) is violated. -/
theorem remove_head_boundary_overflow :
    q_remove_head (some ⟨[⟨0, [97, 98, 99, 100]⟩], some 0, 1⟩) false 4 64 =
      some (true, some ⟨[], none, 0⟩, some (5, [97, 98, 99, 100, 0])) ∧ 4 < 5 :=
  ⟨by decide, by decide⟩

/-- Claim C2 (evidence of the code bug): on the two-element queue with
payloads "b", "a" (well-formed, tail pointing at the node of "a"),
`q_sort` reorders the chain to "a", "b" but leaves `q->tail` untouched
(queue.c:257-265 never reassigns it), so afterwards `tail` does not
reference the last node reachable from `head`. -/
theorem q_sort_stale_tail :
    q_sort (some ⟨[⟨0, [98]⟩, ⟨1, [97]⟩], some 1, 2⟩) =
      some (some ⟨[⟨1, [97]⟩, ⟨0, [98]⟩], some 1, 2⟩) ∧
    ((⟨[⟨1, [97]⟩, ⟨0, [98]⟩], some 1, 2⟩ : Queue).chain.getLast?).map Element.id ≠
      (⟨[⟨1, [97]⟩, ⟨0, [98]⟩], some 1, 2⟩ : Queue).tail := by
  constructor
  · simp [q_sort, recur_sort, merge, strcmp]
  · decide

/-- Claim C3 (evidence of the code bug): the well-formed three-element
queue with payloads "c", "b", "a" satisfies all queue invariants, but after
`q_sort` the invariants no longer hold — the `tail` pointer still
references the pre-sort tail node, which is now the head of the sorted
chain, not its last node.  So not every public operation preserves the
invariants: `q_sort` does not. -/
theorem sort_breaks_invariants :
    wf ⟨[⟨0, [99]⟩, ⟨1, [98]⟩, ⟨2, [97]⟩], some 2, 3⟩ ∧
    q_sort (some ⟨[⟨0, [99]⟩, ⟨1, [98]⟩, ⟨2, [97]⟩], some 2, 3⟩) =
      some (some ⟨[⟨2, [97]⟩, ⟨1, [98]⟩, ⟨0, [99]⟩], some 2, 3⟩) ∧
    ¬ wf ⟨[⟨2, [97]⟩, ⟨1, [98]⟩, ⟨0, [99]⟩], some 2, 3⟩ := by
  refine ⟨by decide, ?_, by decide⟩
  simp [q_sort, recur_sort, merge, strcmp]

/-- Claim C5: when either allocation of `loc_element` fails, both
`q_insert_head` and `q_insert_tail` return false and leave the queue
completely unmodified (same chain, `tail` pointer and `size`). -/
theorem insert_alloc_failure_no_mutation (qq : Queue) (s : List Nat)
    (nodeAlloc : Option Nat) (payloadAlloc : Bool)
    (hfail : nodeAlloc = none ∨ payloadAlloc = false) :
    q_insert_head (some qq) nodeAlloc payloadAlloc s = (false, some qq) ∧
    q_insert_tail (some qq) nodeAlloc payloadAlloc s = (false, some qq) := by
  have hloc : loc_element nodeAlloc payloadAlloc s = none := by
    rcases hfail with h | h
    · subst h; simp [loc_element]
    · subst h; cases nodeAlloc <;> simp [loc_element]
  constructor <;> simp [q_insert_head, q_insert_tail, hloc]

/-- Witness for C5 at a concrete queue and string, with the node
allocation failing. -/
theorem insert_alloc_failure_no_mutation_witness :
    q_insert_head (some ⟨[⟨3, [120]⟩], some 3, 1⟩) none true [104, 105] =
      (false, some ⟨[⟨3, [120]⟩], some 3, 1⟩) ∧
    q_insert_tail (some ⟨[⟨3, [120]⟩], some 3, 1⟩) none true [104, 105] =
      (false, some ⟨[⟨3, [120]⟩], some 3, 1⟩) :=
  insert_alloc_failure_no_mutation ⟨[⟨3, [120]⟩], some 3, 1⟩ [104, 105] none true (Or.inl rfl)

/-- Claim C6: `q_remove_head` returns false exactly when the queue pointer
is NULL or the queue is empty, and in that case performs no mutation and
writes nothing into the output buffer. -/
theorem remove_head_false_iff_invalid_or_empty (qq : Queue) (spNull : Bool)
    (bufsize w : Nat) :
    q_remove_head none spNull bufsize w = some (false, none, none) ∧
    (qq.size = 0 → q_remove_head (some qq) spNull bufsize w = some (false, some qq, none)) ∧
    (∀ r, q_remove_head (some qq) spNull bufsize w = some r → r.1 = false →
      qq.size = 0) := by
  refine ⟨rfl, ?_, ?_⟩
  · intro h; simp [q_remove_head, h]
  · intro r hr hf
    by_contra hs
    cases hch : qq.chain with
    | nil => simp [q_remove_head, hs, hch] at hr
    | cons a rest =>
      simp [q_remove_head, hs, hch] at hr
      rw [← hr] at hf
      simp at hf

/-- Witness for C6: a NULL queue and a concrete empty queue. -/
theorem remove_head_false_iff_invalid_or_empty_witness :
    q_remove_head none false 8 64 = some (false, none, none) ∧
    q_remove_head (some ⟨[], none, 0⟩) false 8 64 =
      some (false, some ⟨[], none, 0⟩, none) := by
  have h := remove_head_false_iff_invalid_or_empty ⟨[], none, 0⟩ false 8 64
  exact ⟨h.1, h.2.1 rfl⟩

/-- Claim C8: starting from the empty queue, a successful `q_insert_tail`
of `v` followed by `q_remove_head` into a buffer larger than `v` returns
true, leaves the queue empty again, and writes exactly the bytes of `v`
plus the terminator — `v` round-trips unchanged (including `v = []`). -/
theorem insert_tail_remove_head_round_trip (v : List Nat) (id bufsize w : Nat)
    (hlen : v.length < bufsize) :
    q_insert_tail (some ⟨[], none, 0⟩) (some id) true v =
      (true, some ⟨[⟨id, v⟩], some id, 1⟩) ∧
    q_remove_head (some ⟨[⟨id, v⟩], some id, 1⟩) false bufsize w =
      some (true, some ⟨[], none, 0⟩, some (v.length + 1, v ++ [0])) := by
  constructor
  · rfl
  · have hnot : ¬ (v.length > bufsize) := by omega
    simp [q_remove_head, spWrite, hnot]

/-- Witness for C8 with `v` = "hi", buffer capacity 8, 64-bit `size_t`. -/
theorem insert_tail_remove_head_round_trip_witness :
    q_insert_tail (some ⟨[], none, 0⟩) (some 7) true [104, 105] =
      (true, some ⟨[⟨7, [104, 105]⟩], some 7, 1⟩) ∧
    q_remove_head (some ⟨[⟨7, [104, 105]⟩], some 7, 1⟩) false 8 64 =
      some (true, some ⟨[], none, 0⟩, some (3, [104, 105, 0])) :=
  insert_tail_remove_head_round_trip [104, 105] 7 8 64 (by decide)

/-- Claim C9: `q_free` on a NULL queue pointer returns immediately and
frees nothing, while on a (for contrast, empty) non-NULL queue it still
frees the queue header itself. -/
theorem q_free_null_noop :
    q_free none = ([], false) ∧ q_free (some ⟨[], none, 0⟩) = ([], true) :=
  ⟨rfl, rfl⟩

/-- Claim C10: the copy in `q_remove_head` is guarded only by `sp` being
non-NULL, not by `bufsize` being positive: on any non-empty queue a write
into `sp` happens for every `bufsize` (including 0), and with `bufsize = 0`
and a non-empty stored value the truncation branch computes its `memcpy`
length as `bufsize - 1` in `size_t`, which wraps to `2 ^ w - 1`, so the
"copy" writes `2 ^ w` bytes. -/
theorem remove_head_unguarded_bufsize (qq : Queue) (e : Element) (rest : List Element)
    (bufsize w : Nat) (hch : qq.chain = e :: rest) (hsz : qq.size ≠ 0) :
    (∃ q' eff, q_remove_head (some qq) false bufsize w = some (true, q', some eff) ∧
      0 < eff.1) ∧
    (e.value ≠ [] →
      truncLen 0 w = 2 ^ w - 1 ∧
      spWrite e.value 0 w = (2 ^ w, e.value.take (2 ^ w - 1) ++ [0])) := by
  have hpow : 0 < 2 ^ w := Nat.pos_pow_of_pos w (by norm_num)
  constructor
  · refine ⟨some ⟨rest, if qq.size - 1 = 0 then none else qq.tail, qq.size - 1⟩,
      spWrite e.value bufsize w, ?_, ?_⟩
    · simp [q_remove_head, hsz, hch]
    · by_cases h : e.value.length > bufsize <;> simp [spWrite, h]
  · intro hv
    have htr : truncLen 0 w = 2 ^ w - 1 := by
      show (0 + (2 ^ w - 1)) % 2 ^ w = 2 ^ w - 1
      rw [Nat.zero_add, Nat.mod_eq_of_lt (by omega)]
    have hgt : e.value.length > 0 := List.length_pos.2 hv
    refine ⟨htr, ?_⟩
    simp [spWrite, hgt, htr]
    omega

/-- Witness for C10: singleton queue holding "a", `bufsize = 0`, 8-bit
`size_t`: the computed `memcpy` length is 255 and 256 bytes are written. -/
theorem remove_head_unguarded_bufsize_witness :
    (∃ q' eff, q_remove_head (some ⟨[⟨0, [97]⟩], some 0, 1⟩) false 0 8 =
      some (true, q', some eff) ∧ 0 < eff.1) ∧
    (truncLen 0 8 = 255 ∧ spWrite [97] 0 8 = (256, [97, 0])) := by
  have h := remove_head_unguarded_bufsize ⟨[⟨0, [97]⟩], some 0, 1⟩ ⟨0, [97]⟩ [] 0 8 rfl
    (by decide)
  exact ⟨h.1, h.2 (by decide)⟩

/-- Claim C4: on a well-formed queue (valid C-string payloads) with at
least two elements, `q_sort` permutes the existing chain into a sequence
that is sorted ascending under `strcmp` (lexicographic byte comparison)
and stable: for every key, the subsequence of elements whose payload
compares equal to it is unchanged, so equal payloads keep their original
relative order. -/
theorem q_sort_sorts_stably (qq : Queue) (hwf : wf qq)
    (hval : ∀ e ∈ qq.chain, validStr e.value) (h2 : 2 ≤ qq.size) :
    ∃ qq' : Queue, q_sort (some qq) = some (some qq') ∧
      List.Perm qq'.chain qq.chain ∧
      qq'.chain.Pairwise eleLe ∧
      ∀ v : List Nat, qq'.chain.filter (fun e => decide (strcmp e.value v = 0)) =
        qq.chain.filter (fun e => decide (strcmp e.value v = 0)) := by
  have hsz : qq.size = qq.chain.length := hwf.1
  have h0 : ¬ (qq.size = 0 ∨ qq.size = 1) := by omega
  refine ⟨⟨recur_sort qq.chain qq.size, qq.tail, qq.size⟩, ?_, ?_, ?_, ?_⟩
  · simp only [q_sort]
    rw [if_neg h0, if_pos (le_of_eq hsz)]
  · exact recur_sort_perm qq.size qq.chain
  · exact recur_sort_sorted qq.size qq.chain (by omega) hval
  · intro v
    exact recur_sort_filter v qq.size qq.chain (by omega) hval

/-- Witness for C4: a three-element queue with a duplicate key
("b", "a", "a" with distinct node identities). -/
theorem q_sort_sorts_stably_witness :
    wf ⟨[⟨0, [98]⟩, ⟨1, [97]⟩, ⟨2, [97]⟩], some 2, 3⟩ ∧
    (∀ e ∈ (⟨[⟨0, [98]⟩, ⟨1, [97]⟩, ⟨2, [97]⟩], some 2, 3⟩ : Queue).chain,
      validStr e.value) ∧
    2 ≤ (⟨[⟨0, [98]⟩, ⟨1, [97]⟩, ⟨2, [97]⟩], some 2, 3⟩ : Queue).size ∧
    (∃ qq' : Queue,
      q_sort (some ⟨[⟨0, [98]⟩, ⟨1, [97]⟩, ⟨2, [97]⟩], some 2, 3⟩) = some (some qq') ∧
      List.Perm qq'.chain (⟨[⟨0, [98]⟩, ⟨1, [97]⟩, ⟨2, [97]⟩], some 2, 3⟩ : Queue).chain ∧
      qq'.chain.Pairwise eleLe ∧
      ∀ v : List Nat, qq'.chain.filter (fun e => decide (strcmp e.value v = 0)) =
        (⟨[⟨0, [98]⟩, ⟨1, [97]⟩, ⟨2, [97]⟩], some 2, 3⟩ : Queue).chain.filter
          (fun e => decide (strcmp e.value v = 0))) :=
  ⟨by decide, by decide, by decide,
    q_sort_sorts_stably ⟨[⟨0, [98]⟩, ⟨1, [97]⟩, ⟨2, [97]⟩], some 2, 3⟩
      (by decide) (by decide) (by decide)⟩

/-- On a well-formed queue with at least two elements, `q_reverse` reverses
the reachable chain and swaps the `head` and `tail` references. -/
theorem q_reverse_eq_of_wf (qq : Queue) (hwf : wf qq)
    (h01 : ¬ (qq.size = 0 ∨ qq.size = 1)) :
    q_reverse (some qq) =
      some (some ⟨qq.chain.reverse, (qq.chain.head?).map Element.id, qq.size⟩) := by
  obtain ⟨hsz, htl, hnd⟩ := hwf
  have hlen2 : 2 ≤ qq.chain.length := by omega
  obtain ⟨a, rest, hch⟩ : ∃ a rest, qq.chain = a :: rest := by
    cases hc : qq.chain with
    | nil => rw [hc] at hlen2; simp at hlen2
    | cons x xs => exact ⟨x, xs, rfl⟩
  have hne : qq.chain ≠ [] := by rw [hch]; simp
  obtain ⟨z, hz⟩ : ∃ z, qq.chain.getLast? = some z :=
    Option.isSome_iff_exists.1 (List.getLast?_isSome.2 hne)
  have htl' : qq.tail = some z.id := by rw [htl, hz]; rfl
  have hzid : z.id ∈ qq.chain.map Element.id :=
    List.mem_map_of_mem Element.id (mem_of_getLast?_eq hz)
  have hRz : reachAfterReverse qq.chain z.id = qq.chain :=
    reachAfterReverse_getLast qq.chain z hz hnd
  simp only [q_reverse]
  rw [if_neg h01, hch, htl']
  rw [hch] at hzid hRz
  dsimp only
  rw [if_pos hzid, hRz]
  simp

/-- Claim C7: on any well-formed queue, reversing twice restores the
original observable state exactly — the element order and the `tail`
reference target are back to what they were (and NULL queues stay NULL). -/
theorem reverse_reverse_id (qq : Queue) (hwf : wf qq) :
    ∃ q1, q_reverse (some qq) = some q1 ∧ q_reverse q1 = some (some qq) := by
  by_cases h01 : qq.size = 0 ∨ qq.size = 1
  · refine ⟨some qq, ?_, ?_⟩ <;> (simp only [q_reverse]; rw [if_pos h01])
  · obtain ⟨hsz, htl, hnd⟩ := hwf
    have h1 := q_reverse_eq_of_wf qq ⟨hsz, htl, hnd⟩ h01
    have hwf1 : wf ⟨qq.chain.reverse, (qq.chain.head?).map Element.id, qq.size⟩ := by
      refine ⟨?_, ?_, ?_⟩
      · show qq.size = qq.chain.reverse.length
        simpa using hsz
      · show (qq.chain.head?).map Element.id = (qq.chain.reverse.getLast?).map Element.id
        rw [List.getLast?_reverse]
      · show (qq.chain.reverse.map Element.id).Nodup
        rw [List.map_reverse, List.nodup_reverse]
        exact hnd
    have h2 := q_reverse_eq_of_wf _ hwf1 h01
    refine ⟨some ⟨qq.chain.reverse, (qq.chain.head?).map Element.id, qq.size⟩, h1, ?_⟩
    have hq : (⟨qq.chain.reverse.reverse,
        (qq.chain.reverse.head?).map Element.id, qq.size⟩ : Queue) = qq := by
      cases qq with
      | mk ch tl sz =>
        simp only [Queue.mk.injEq]
        refine ⟨List.reverse_reverse ch, ?_, trivial⟩
        rw [List.head?_reverse]
        exact htl.symm
    rw [h2]
    dsimp only
    rw [hq]

/-- Witness for C7: a concrete well-formed two-element queue. -/
theorem reverse_reverse_id_witness :
    wf ⟨[⟨0, [97]⟩, ⟨1, [98]⟩], some 1, 2⟩ ∧
    ∃ q1, q_reverse (some ⟨[⟨0, [97]⟩, ⟨1, [98]⟩], some 1, 2⟩) = some q1 ∧
      q_reverse q1 = some (some ⟨[⟨0, [97]⟩, ⟨1, [98]⟩], some 1, 2⟩) :=
  ⟨by decide, reverse_reverse_id ⟨[⟨0, [97]⟩, ⟨1, [98]⟩], some 1, 2⟩ (by decide)⟩
